import Mathlib

set_option maxHeartbeats 1000000

open Classical

/-- IEEE-style sample value as handled by the pipeline: a finite real,
positive or negative infinity, or NaN. -/
inductive FVal where
  | fin : ℝ → FVal
  | pinf : FVal
  | ninf : FVal
  | nan : FVal

/-- Embedding of np.isfinite on a single sample. -/
def FVal.isFinite : FVal → Bool
  | .fin _ => true
  | _ => false

/-- Real content of a finite sample (0 on the non-finite constructors,
which the pipeline never reads). -/
def FVal.toReal : FVal → ℝ
  | .fin x => x
  | _ => 0

/-- IEEE division of a sample by a finite nonzero real denominator. -/
noncomputable def FVal.divFin : FVal → ℝ → FVal
  | .fin x, y => .fin (x / y)
  | .nan, _ => .nan
  | .pinf, y => if 0 < y then .pinf else .ninf
  | .ninf, y => if 0 < y then .ninf else .pinf

/-- Embedding of partition_coefficient from src/qumin/pipeline.py: NaN when
the denominator is not finite or equals zero, otherwise the quotient. -/
noncomputable def partition_coefficient (red_agg red_cyto : FVal) : FVal :=
  match red_cyto with
  | .fin y => if y = 0 then .nan else red_agg.divFin y
  | _ => .nan

/-- A real-valued image: a 2-D grid of samples, rows by columns. -/
def Image (m n : ℕ) : Type := Fin m → Fin n → ℝ

/-- numpy ndarray.mean: the sum of all entries divided by the entry count. -/
noncomputable def npMean {m n : ℕ} (img : Image m n) : ℝ :=
  (∑ i, ∑ j, img i j) / ((m : ℝ) * n)

/-- numpy ndarray.var with the default ddof = 0: the mean of the squared
deviations from the mean. -/
noncomputable def npVar {m n : ℕ} (img : Image m n) : ℝ :=
  npMean (fun i j => (img i j - npMean img) ^ 2)

/-- numpy ndarray.std: the square root of the variance. -/
noncomputable def npStd {m n : ℕ} (img : Image m n) : ℝ :=
  Real.sqrt (npVar img)

/-- Embedding of compute_thresholds from src/qumin/pipeline.py: the pair
(mean + lower_k * std, mean + upper_k * std). -/
noncomputable def compute_thresholds {m n : ℕ} (image : Image m n)
    (lower_k upper_k : ℝ) : ℝ × ℝ :=
  (npMean image + lower_k * npStd image, npMean image + upper_k * npStd image)

/-- Stated from the specification wording: the arithmetic average of all
pixels of the image. -/
noncomputable def specMean {m n : ℕ} (img : Image m n) : ℝ :=
  (∑ p : Fin m × Fin n, img p.1 p.2) / ((m : ℝ) * n)

/-- Stated from the specification wording: the population standard
deviation, dividing the summed squared deviations by the pixel count N
(not N - 1). -/
noncomputable def specStd {m n : ℕ} (img : Image m n) : ℝ :=
  Real.sqrt ((∑ p : Fin m × Fin n, (img p.1 p.2 - specMean img) ^ 2) / ((m : ℝ) * n))

/-- A 1-row, 2-column two-level test image with values 0 and 10. -/
noncomputable def img01 : Image 1 2 := fun _ j => if j.val = 0 then (0 : ℝ) else 10

/-- Embedding of the Settings dataclass from src/qumin/pipeline.py. -/
structure Settings where
  lower_k : ℝ
  upper_k : ℝ
  blur_sigma : ℝ
  dilate_size : ℤ

/-- A smoothing collaborator: given a sigma and an image it returns a
same-shape image (the external Gaussian filter of the spec, not
re-specified). -/
def SmoothFn (m n : ℕ) : Type := ℝ → Image m n → Image m n

/-- Embedding of _prep from src/qumin/pipeline.py: smooth when blur_sigma
is truthy and positive (equivalently, positive), else leave the image
unchanged. -/
noncomputable def prep {m n : ℕ} (G : SmoothFn m n) (image : Image m n)
    (s : Settings) : Image m n :=
  if 0 < s.blur_sigma then G s.blur_sigma image else image

/-- The dilation-enabling test of make_masks, from the Python condition
on dilate_size: truthy (nonzero), at least 3, and odd. -/
def dilationActive (s : Settings) : Prop :=
  s.dilate_size ≠ 0 ∧ 3 ≤ s.dilate_size ∧ s.dilate_size % 2 = 1

instance (s : Settings) : Decidable (dilationActive s) := by
  unfold dilationActive; infer_instance

/-- A boolean mask over the image grid. -/
def Mask (m n : ℕ) : Type := Fin m → Fin n → Prop

/-- Strict thresholding: the pixels whose value strictly exceeds t. -/
noncomputable def threshMask {m n : ℕ} (img : Image m n) (t : ℝ) : Mask m n :=
  fun i j => img i j > t

/-- skimage binary_dilation with a square structuring element of odd side
2 * r + 1: a pixel is set when some true pixel lies within Chebyshev
distance r of it, clipped at the image boundary. -/
def dilate {m n : ℕ} (r : ℕ) (mask : Mask m n) : Mask m n :=
  fun i j => ∃ a : Fin m, ∃ b : Fin n, mask a b ∧
    i.val ≤ a.val + r ∧ a.val ≤ i.val + r ∧ j.val ≤ b.val + r ∧ b.val ≤ j.val + r

/-- The result dict of make_masks: two boolean masks over the image grid
plus the two thresholds. -/
structure MaskResult (m n : ℕ) where
  bg : Mask m n
  agg : Mask m n
  lower : ℝ
  upper : ℝ

/-- Embedding of make_masks from src/qumin/pipeline.py: threshold the
(possibly smoothed) image strictly at the lower and upper thresholds, then
optionally dilate both masks with a square element of odd size >= 3. -/
noncomputable def make_masks {m n : ℕ} (G : SmoothFn m n)
    (main_channel_img : Image m n) (s : Settings) : MaskResult m n :=
  let img := prep G main_channel_img s
  let t := compute_thresholds img s.lower_k s.upper_k
  if dilationActive s then
    ⟨dilate ((s.dilate_size.toNat - 1) / 2) (threshMask img t.1),
     dilate ((s.dilate_size.toNat - 1) / 2) (threshMask img t.2), t.1, t.2⟩
  else
    ⟨threshMask img t.1, threshMask img t.2, t.1, t.2⟩

/-- A grid of IEEE-style samples, as consumed by intensity aggregation. -/
def FImage (m n : ℕ) : Type := Fin m → Fin n → FVal

/-- View a real-valued image as a grid of finite samples. -/
def toF {m n : ℕ} (img : Image m n) : FImage m n := fun i j => .fin (img i j)

/-- The pixel positions selected by values[mask] followed by
v[np.isfinite(v)]: positions where the mask holds and the sample is
finite. -/
noncomputable def regionSel {m n : ℕ} (values : FImage m n) (mask : Mask m n) :
    Finset (Fin m × Fin n) :=
  Finset.univ.filter fun p => mask p.1 p.2 ∧ (values p.1 p.2).isFinite = true

/-- Embedding of _nonzero_mean from src/qumin/pipeline.py: restrict to the
mask (to everything for the None sentinel), keep only finite samples,
return NaN when nothing is left, else the arithmetic mean. -/
noncomputable def nonzero_mean {m n : ℕ} (values : FImage m n)
    (mask : Option (Mask m n)) : FVal :=
  let sel := regionSel values (match mask with
    | none => fun _ _ => True
    | some mk => mk)
  if sel = ∅ then .nan
  else .fin ((∑ p ∈ sel, (values p.1 p.2).toReal) / sel.card)

/-- The metric dict produced by measure_intensity; the fields are the five
named means in the source's key order: Unedited, Background Removed,
Aggregates, Red Aggregates, Red Cytoplasm (all suffixed (Intensity)). -/
structure Metrics where
  unedited : FVal
  backgroundRemoved : FVal
  aggregates : FVal
  redAggregates : FVal
  redCytoplasm : FVal

/-- Embedding of measure_intensity from src/qumin/pipeline.py. -/
noncomputable def measure_intensity {m n : ℕ} (main_img red_img : FImage m n)
    (masks : MaskResult m n) : Metrics :=
  let bg := masks.bg
  let agg := masks.agg
  ⟨nonzero_mean main_img none,
   nonzero_mean main_img (some bg),
   nonzero_mean main_img (some agg),
   nonzero_mean red_img (some agg),
   nonzero_mean red_img (some fun i j => bg i j ∧ ¬ agg i j)⟩

/-- The identity smoothing collaborator; used where blur_sigma = 0 makes
smoothing unreachable. -/
def Gid {m n : ℕ} : SmoothFn m n := fun _ img => img

/-- A constant image. -/
def constImage (m n : ℕ) (c : ℝ) : Image m n := fun _ _ => c

/-- The 10x10 two-level image of the end-to-end scenario: left half 0.0,
right half 10.0. -/
noncomputable def img7 : Image 10 10 := fun _ j => if j.val < 5 then (0 : ℝ) else 10

/-- Settings of the end-to-end scenario. -/
noncomputable def s7 : Settings := ⟨0.1, 0.9, 0, 0⟩

/-- Settings with k = -1 so the lower threshold lands exactly on a pixel
value, and with a 3x3 dilation enabled. -/
noncomputable def s4 : Settings := ⟨-1, -1, 0, 3⟩

/-- C1: partition_coefficient returns NaN when the denominator is NaN,
infinite, or zero; otherwise it returns exactly the quotient of the two
values. It is a total function (never raises), and any nonzero finite
denominator, however small, is divided by without clamping. -/
theorem partition_coefficient_spec :
    (∀ a : FVal, partition_coefficient a .nan = .nan) ∧
    (∀ a : FVal, partition_coefficient a .pinf = .nan) ∧
    (∀ a : FVal, partition_coefficient a .ninf = .nan) ∧
    (∀ a : FVal, partition_coefficient a (.fin 0) = .nan) ∧
    (∀ x y : ℝ, y ≠ 0 → partition_coefficient (.fin x) (.fin y) = .fin (x / y)) := by
  refine ⟨fun a => rfl, fun a => rfl, fun a => rfl, fun a => ?_, fun x y hy => ?_⟩
  · simp [partition_coefficient]
  · simp [partition_coefficient, hy, FVal.divFin]

/-- C1 witness: a concrete nonzero denominator (2) yields the exact
quotient, via the main theorem. -/
theorem partition_coefficient_spec_witness :
    (2 : ℝ) ≠ 0 ∧ partition_coefficient (.fin 3) (.fin 2) = .fin (3 / 2) :=
  ⟨by norm_num, partition_coefficient_spec.2.2.2.2 3 2 (by norm_num)⟩

/-- The double row-column sum of an image equals the sum over the product
index set. -/
theorem sum_rows_eq_sum_prod {m n : ℕ} (f : Fin m → Fin n → ℝ) :
    (∑ i, ∑ j, f i j) = ∑ p : Fin m × Fin n, f p.1 p.2 := by
  rw [Fintype.sum_prod_type]

/-- C3: compute_thresholds returns exactly
(mean + lower_k * std, mean + upper_k * std), where mean is the arithmetic
average of all pixels and std is the population standard deviation that
divides the summed squared deviations by the pixel count N, not N - 1. -/
theorem compute_thresholds_is_mean_plus_k_std {m n : ℕ} (image : Image m n)
    (lower_k upper_k : ℝ) :
    compute_thresholds image lower_k upper_k =
      (specMean image + lower_k * specStd image,
       specMean image + upper_k * specStd image) := by
  have hmean : npMean image = specMean image := by
    unfold npMean specMean
    rw [sum_rows_eq_sum_prod]
  have hstd : npStd image = specStd image := by
    unfold npStd specStd npVar npMean
    rw [sum_rows_eq_sum_prod (fun i j => (image i j - _) ^ 2)]
    rw [show ((∑ i, ∑ j, image i j) / ((m : ℝ) * n)) = specMean image by
      unfold specMean; rw [sum_rows_eq_sum_prod]]
  unfold compute_thresholds
  rw [hmean, hstd]

/-- The mean written as a sum over the product index set. -/
theorem npMean_prod {m n : ℕ} (f : Image m n) :
    npMean f = (∑ p : Fin m × Fin n, f p.1 p.2) / ((m : ℝ) * n) := by
  unfold npMean; rw [sum_rows_eq_sum_prod]

/-- The variance written as a sum over the product index set. -/
theorem npVar_prod {m n : ℕ} (img : Image m n) :
    npVar img = (∑ p : Fin m × Fin n, (img p.1 p.2 - npMean img) ^ 2) / ((m : ℝ) * n) := by
  unfold npVar; rw [npMean_prod]

/-- The variance is nonnegative. -/
theorem npVar_nonneg {m n : ℕ} (img : Image m n) : 0 ≤ npVar img := by
  rw [npVar_prod]
  apply div_nonneg (Finset.sum_nonneg fun p _ => sq_nonneg _)
  positivity

/-- Two pixels with different values force a strictly positive variance. -/
theorem npVar_pos {m n : ℕ} (img : Image m n) (p q : Fin m × Fin n)
    (h : img p.1 p.2 ≠ img q.1 q.2) : 0 < npVar img := by
  have hm : 0 < m := p.1.pos
  have hn : 0 < n := p.2.pos
  rw [npVar_prod]
  apply div_pos
  · apply Finset.sum_pos' (fun r _ => sq_nonneg _)
    by_cases hp : img p.1 p.2 = npMean img
    · refine ⟨q, Finset.mem_univ q, ?_⟩
      have hq : img q.1 q.2 - npMean img ≠ 0 := by
        intro hc
        exact h (hp.trans (sub_eq_zero.mp hc).symm)
      exact pow_two_pos_of_ne_zero hq
    · refine ⟨p, Finset.mem_univ p, ?_⟩
      have hq : img p.1 p.2 - npMean img ≠ 0 := sub_ne_zero.mpr hp
      exact pow_two_pos_of_ne_zero hq
  · have : (0 : ℝ) < m := by exact_mod_cast hm
    have : (0 : ℝ) < n := by exact_mod_cast hn
    positivity

/-- The standard deviation is nonnegative. -/
theorem npStd_nonneg {m n : ℕ} (img : Image m n) : 0 ≤ npStd img :=
  Real.sqrt_nonneg _

/-- C9: for a fixed image each threshold is mean + k * std with std >= 0,
hence a non-decreasing affine function of its multiplier k; on a
non-constant image, lower_k = 0 and upper_k = 1 give upper > lower. -/
theorem compute_thresholds_monotone_in_k {m n : ℕ} (img : Image m n) :
    0 ≤ npStd img ∧
    (∀ k u : ℝ, compute_thresholds img k u =
      (npMean img + k * npStd img, npMean img + u * npStd img)) ∧
    (∀ k₁ k₂ u : ℝ, k₁ ≤ k₂ →
      (compute_thresholds img k₁ u).1 ≤ (compute_thresholds img k₂ u).1) ∧
    (∀ l k₁ k₂ : ℝ, k₁ ≤ k₂ →
      (compute_thresholds img l k₁).2 ≤ (compute_thresholds img l k₂).2) ∧
    ((∃ p q : Fin m × Fin n, img p.1 p.2 ≠ img q.1 q.2) →
      (compute_thresholds img 0 1).1 < (compute_thresholds img 0 1).2) := by
  refine ⟨npStd_nonneg img, fun k u => rfl, fun k₁ k₂ u hk => ?_, fun l k₁ k₂ hk => ?_, ?_⟩
  · exact add_le_add_left (mul_le_mul_of_nonneg_right hk (npStd_nonneg img)) _
  · exact add_le_add_left (mul_le_mul_of_nonneg_right hk (npStd_nonneg img)) _
  · rintro ⟨p, q, hpq⟩
    have hstd : 0 < npStd img := Real.sqrt_pos.mpr (npVar_pos img p q hpq)
    show npMean img + 0 * npStd img < npMean img + 1 * npStd img
    nlinarith

/-- C9 witness: on the concrete two-level 1x2 image, the lower threshold at
multiplier 0 is at most the one at multiplier 1, and with lower_k = 0,
upper_k = 1 the upper threshold strictly exceeds the lower one. -/
theorem compute_thresholds_monotone_in_k_witness :
    ((0 : ℝ) ≤ 1 ∧
      (compute_thresholds img01 0 0).1 ≤ (compute_thresholds img01 1 0).1) ∧
    ((∃ p q : Fin 1 × Fin 2, img01 p.1 p.2 ≠ img01 q.1 q.2) ∧
      (compute_thresholds img01 0 1).1 < (compute_thresholds img01 0 1).2) :=
  ⟨⟨by norm_num, (compute_thresholds_monotone_in_k img01).2.2.1 0 1 0 (by norm_num)⟩,
   ⟨⟨(0, 0), (0, 1), by norm_num [img01]⟩,
    (compute_thresholds_monotone_in_k img01).2.2.2.2
      ⟨(0, 0), (0, 1), by norm_num [img01]⟩⟩⟩

/-- Membership in the selected pixel set. -/
theorem mem_regionSel {m n : ℕ} (values : FImage m n) (mask : Mask m n)
    (p : Fin m × Fin n) :
    p ∈ regionSel values mask ↔
      mask p.1 p.2 ∧ (values p.1 p.2).isFinite = true := by
  unfold regionSel
  simp [Finset.mem_filter]

/-- The selected pixel set is empty exactly when every mask-true pixel
holds a non-finite sample (in particular when the mask is all-false). -/
theorem regionSel_empty_iff {m n : ℕ} (values : FImage m n) (mask : Mask m n) :
    regionSel values mask = ∅ ↔
      ∀ i j, mask i j → (values i j).isFinite = false := by
  simp only [Finset.eq_empty_iff_forall_not_mem, mem_regionSel, not_and,
    Bool.not_eq_true]
  exact ⟨fun h i j hm => h (i, j) hm, fun h p hm => h p.1 p.2 hm⟩

/-- The region mean is NaN exactly when the selected set is empty. -/
theorem nonzero_mean_eq_nan_iff {m n : ℕ} (values : FImage m n) (mask : Mask m n) :
    nonzero_mean values (some mask) = .nan ↔ regionSel values mask = ∅ := by
  unfold nonzero_mean
  by_cases h : regionSel values mask = ∅ <;> simp [h]

/-- On a nonempty selection the region mean is the arithmetic mean of the
selected finite samples. -/
theorem nonzero_mean_of_ne {m n : ℕ} (values : FImage m n) (mask : Mask m n)
    (h : regionSel values mask ≠ ∅) :
    nonzero_mean values (some mask) =
      .fin ((∑ p ∈ regionSel values mask, (values p.1 p.2).toReal) /
        (regionSel values mask).card) := by
  unfold nonzero_mean
  simp [h]

/-- An all-false mask yields a NaN region mean. -/
theorem nonzero_mean_all_false {m n : ℕ} (values : FImage m n) (mask : Mask m n)
    (h : ∀ i j, ¬ mask i j) : nonzero_mean values (some mask) = .nan :=
  (nonzero_mean_eq_nan_iff values mask).mpr
    ((regionSel_empty_iff values mask).mpr fun i j hm => absurd hm (h i j))

/-- When every selected sample equals the finite value c and the mask is
somewhere true, the region mean is c. -/
theorem nonzero_mean_const {m n : ℕ} (values : FImage m n) (mask : Mask m n)
    (c : ℝ) (hval : ∀ i j, mask i j → values i j = .fin c)
    (hne : ∃ i j, mask i j) :
    nonzero_mean values (some mask) = .fin c := by
  obtain ⟨i0, j0, h0⟩ := hne
  have hmem : (i0, j0) ∈ regionSel values mask := by
    rw [mem_regionSel]
    exact ⟨h0, by rw [hval i0 j0 h0]; rfl⟩
  have hcard : 0 < (regionSel values mask).card :=
    Finset.card_pos.mpr ⟨(i0, j0), hmem⟩
  have hne2 : regionSel values mask ≠ ∅ := by
    intro hcon
    rw [hcon] at hmem
    exact absurd hmem (Finset.not_mem_empty _)
  rw [nonzero_mean_of_ne values mask hne2]
  have hsum : (∑ p ∈ regionSel values mask, (values p.1 p.2).toReal) =
      (regionSel values mask).card • c := by
    rw [← Finset.sum_const]
    apply Finset.sum_congr rfl
    intro p hp
    rw [hval p.1 p.2 ((mem_regionSel values mask p).mp hp).1]
    rfl
  rw [hsum, nsmul_eq_mul]
  have hc : ((regionSel values mask).card : ℝ) ≠ 0 := by exact_mod_cast hcard.ne'
  congr 1
  rw [mul_comm, mul_div_assoc, div_self hc, mul_one]

/-- C2: the region mean restricts to mask-true pixels (all pixels for the
None sentinel), drops non-finite samples, returns NaN exactly when no
finite sample remains in the mask (so it never returns 0 and never fails
there), and otherwise returns the arithmetic mean of the remaining finite
samples. -/
theorem nonzero_mean_spec {m n : ℕ} (values : FImage m n) (mask : Mask m n) :
    (nonzero_mean values (some mask) = .nan ↔
      ∀ i j, mask i j → (values i j).isFinite = false) ∧
    (∀ p, p ∈ regionSel values mask ↔
      mask p.1 p.2 ∧ (values p.1 p.2).isFinite = true) ∧
    (regionSel values mask ≠ ∅ →
      nonzero_mean values (some mask) =
        .fin ((∑ p ∈ regionSel values mask, (values p.1 p.2).toReal) /
          (regionSel values mask).card)) ∧
    nonzero_mean values none = nonzero_mean values (some fun _ _ => True) :=
  ⟨(nonzero_mean_eq_nan_iff values mask).trans (regionSel_empty_iff values mask),
   mem_regionSel values mask,
   nonzero_mean_of_ne values mask,
   rfl⟩

/-- C2 witness: on a concrete 1x1 grid with a finite sample and the
everywhere-true mask the selection is nonempty and the region mean is the
sample itself, via the main theorem. -/
theorem nonzero_mean_spec_witness :
    regionSel (fun _ _ => FVal.fin 5 : FImage 1 1) (fun _ _ => True) ≠ ∅ ∧
    nonzero_mean (fun _ _ => FVal.fin 5 : FImage 1 1) (some fun _ _ => True) =
      .fin ((∑ p ∈ regionSel (fun _ _ => FVal.fin 5 : FImage 1 1) (fun _ _ => True),
        ((fun _ _ => FVal.fin 5 : FImage 1 1) p.1 p.2).toReal) /
        (regionSel (fun _ _ => FVal.fin 5 : FImage 1 1) (fun _ _ => True)).card) := by
  have hmem : ((0 : Fin 1), (0 : Fin 1)) ∈
      regionSel (fun _ _ => FVal.fin 5 : FImage 1 1) (fun _ _ => True) := by
    rw [mem_regionSel]
    exact ⟨trivial, rfl⟩
  have hne : regionSel (fun _ _ => FVal.fin 5 : FImage 1 1) (fun _ _ => True) ≠ ∅ := by
    intro hcon
    rw [hcon] at hmem
    exact absurd hmem (Finset.not_mem_empty _)
  exact ⟨hne, (nonzero_mean_spec (fun _ _ => FVal.fin 5) (fun _ _ => True)).2.2.1 hne⟩

/-- C5: measure_intensity returns exactly the five named means: whole
primary, primary in background, primary in aggregate, secondary in
aggregate, and secondary in cytoplasm, where the cytoplasm mask is the
fresh conjunction background AND NOT aggregate. -/
theorem measure_intensity_spec {m n : ℕ} (main_img red_img : FImage m n)
    (masks : MaskResult m n) :
    (measure_intensity main_img red_img masks).unedited =
      nonzero_mean main_img none ∧
    (measure_intensity main_img red_img masks).backgroundRemoved =
      nonzero_mean main_img (some masks.bg) ∧
    (measure_intensity main_img red_img masks).aggregates =
      nonzero_mean main_img (some masks.agg) ∧
    (measure_intensity main_img red_img masks).redAggregates =
      nonzero_mean red_img (some masks.agg) ∧
    (measure_intensity main_img red_img masks).redCytoplasm =
      nonzero_mean red_img (some fun i j => masks.bg i j ∧ ¬ masks.agg i j) :=
  ⟨rfl, rfl, rfl, rfl, rfl⟩

/-- make_masks with the dilation gate closed: the raw strict-threshold
masks and the two thresholds. -/
theorem make_masks_of_not_active {m n : ℕ} (G : SmoothFn m n)
    (image : Image m n) (s : Settings) (h : ¬ dilationActive s) :
    make_masks G image s =
      ⟨threshMask (prep G image s)
         (compute_thresholds (prep G image s) s.lower_k s.upper_k).1,
       threshMask (prep G image s)
         (compute_thresholds (prep G image s) s.lower_k s.upper_k).2,
       (compute_thresholds (prep G image s) s.lower_k s.upper_k).1,
       (compute_thresholds (prep G image s) s.lower_k s.upper_k).2⟩ := by
  simp only [make_masks]
  rw [if_neg h]

/-- make_masks with the dilation gate open: both strict-threshold masks
dilated by the square element's radius. -/
theorem make_masks_of_active {m n : ℕ} (G : SmoothFn m n)
    (image : Image m n) (s : Settings) (h : dilationActive s) :
    make_masks G image s =
      ⟨dilate ((s.dilate_size.toNat - 1) / 2)
         (threshMask (prep G image s)
           (compute_thresholds (prep G image s) s.lower_k s.upper_k).1),
       dilate ((s.dilate_size.toNat - 1) / 2)
         (threshMask (prep G image s)
           (compute_thresholds (prep G image s) s.lower_k s.upper_k).2),
       (compute_thresholds (prep G image s) s.lower_k s.upper_k).1,
       (compute_thresholds (prep G image s) s.lower_k s.upper_k).2⟩ := by
  simp only [make_masks]
  rw [if_pos h]

/-- The lower threshold returned by make_masks. -/
theorem make_masks_lower {m n : ℕ} (G : SmoothFn m n)
    (image : Image m n) (s : Settings) :
    (make_masks G image s).lower =
      (compute_thresholds (prep G image s) s.lower_k s.upper_k).1 := by
  by_cases h : dilationActive s
  · rw [make_masks_of_active G image s h]
  · rw [make_masks_of_not_active G image s h]

/-- The upper threshold returned by make_masks. -/
theorem make_masks_upper {m n : ℕ} (G : SmoothFn m n)
    (image : Image m n) (s : Settings) :
    (make_masks G image s).upper =
      (compute_thresholds (prep G image s) s.lower_k s.upper_k).2 := by
  by_cases h : dilationActive s
  · rw [make_masks_of_active G image s h]
  · rw [make_masks_of_not_active G image s h]

/-- Mean of a constant image. -/
theorem npMean_const {m n : ℕ} (hm : 0 < m) (hn : 0 < n) (c : ℝ) :
    npMean (constImage m n c) = c := by
  have hm' : ((m : ℝ)) ≠ 0 := by exact_mod_cast hm.ne'
  have hn' : ((n : ℝ)) ≠ 0 := by exact_mod_cast hn.ne'
  unfold npMean constImage
  rw [show (∑ _i : Fin m, ∑ _j : Fin n, c) = (m : ℝ) * ((n : ℝ) * c) by
    simp [Finset.sum_const, Finset.card_univ, nsmul_eq_mul]]
  field_simp
  ring

/-- Variance of a constant image. -/
theorem npVar_const {m n : ℕ} (hm : 0 < m) (hn : 0 < n) (c : ℝ) :
    npVar (constImage m n c) = 0 := by
  unfold npVar
  rw [npMean_const hm hn c]
  rw [show (fun (i : Fin m) (j : Fin n) => (constImage m n c i j - c) ^ 2) =
      constImage m n 0 by funext i j; simp [constImage]]
  unfold npMean constImage
  simp

/-- Both thresholds of a constant image equal the constant. -/
theorem compute_thresholds_const {m n : ℕ} (hm : 0 < m) (hn : 0 < n)
    (c lk uk : ℝ) :
    compute_thresholds (constImage m n c) lk uk = (c, c) := by
  unfold compute_thresholds npStd
  rw [npVar_const hm hn c, Real.sqrt_zero, npMean_const hm hn c]
  simp

/-- C6: on a constant image with blur_sigma = 0 and dilate_size = 0, both
thresholds equal the constant (std = 0), both masks are all-false (strict
greater-than excludes equality), the whole-image mean is the constant, and
every mask-derived mean is NaN. -/
theorem constant_image_all_nan {m n : ℕ} (hm : 0 < m) (hn : 0 < n)
    (c lk uk : ℝ) (G : SmoothFn m n) (red : FImage m n) :
    (make_masks G (constImage m n c) ⟨lk, uk, 0, 0⟩).lower = c ∧
    (make_masks G (constImage m n c) ⟨lk, uk, 0, 0⟩).upper = c ∧
    (∀ i j, ¬ (make_masks G (constImage m n c) ⟨lk, uk, 0, 0⟩).bg i j) ∧
    (∀ i j, ¬ (make_masks G (constImage m n c) ⟨lk, uk, 0, 0⟩).agg i j) ∧
    (measure_intensity (toF (constImage m n c)) red
      (make_masks G (constImage m n c) ⟨lk, uk, 0, 0⟩)).unedited = .fin c ∧
    (measure_intensity (toF (constImage m n c)) red
      (make_masks G (constImage m n c) ⟨lk, uk, 0, 0⟩)).backgroundRemoved = .nan ∧
    (measure_intensity (toF (constImage m n c)) red
      (make_masks G (constImage m n c) ⟨lk, uk, 0, 0⟩)).aggregates = .nan ∧
    (measure_intensity (toF (constImage m n c)) red
      (make_masks G (constImage m n c) ⟨lk, uk, 0, 0⟩)).redAggregates = .nan ∧
    (measure_intensity (toF (constImage m n c)) red
      (make_masks G (constImage m n c) ⟨lk, uk, 0, 0⟩)).redCytoplasm = .nan := by
  have hact : ¬ dilationActive (⟨lk, uk, 0, 0⟩ : Settings) := fun h => h.1 rfl
  have hprep : prep G (constImage m n c) ⟨lk, uk, 0, 0⟩ = constImage m n c := by
    unfold prep
    simp
  have hmm := make_masks_of_not_active G (constImage m n c) ⟨lk, uk, 0, 0⟩ hact
  rw [hprep, compute_thresholds_const hm hn c lk uk] at hmm
  rw [hmm]
  have hbg : ∀ i j, ¬ threshMask (constImage m n c) ((c, c) : ℝ × ℝ).1 i j :=
    fun i j => lt_irrefl c
  refine ⟨rfl, rfl, hbg, hbg, ?_, ?_, ?_, ?_, ?_⟩
  · show nonzero_mean (toF (constImage m n c)) none = .fin c
    rw [show nonzero_mean (toF (constImage m n c)) none =
        nonzero_mean (toF (constImage m n c)) (some fun _ _ => True) from rfl]
    exact nonzero_mean_const _ _ c (fun i j _ => rfl) ⟨⟨0, hm⟩, ⟨0, hn⟩, trivial⟩
  · exact nonzero_mean_all_false _ _ hbg
  · exact nonzero_mean_all_false _ _ hbg
  · exact nonzero_mean_all_false _ _ hbg
  · exact nonzero_mean_all_false _ _ fun i j hc => hbg i j hc.1

/-- C6 witness: the 1x1 constant image with value 2 (secondary constant 7),
lower_k = 3, upper_k = 4: lower threshold 2 and Red Cytoplasm mean NaN, via
the main theorem. -/
theorem constant_image_all_nan_witness :
    0 < 1 ∧
    (make_masks Gid (constImage 1 1 2) ⟨3, 4, 0, 0⟩).lower = 2 ∧
    (measure_intensity (toF (constImage 1 1 2)) (toF (constImage 1 1 7))
      (make_masks Gid (constImage 1 1 2) ⟨3, 4, 0, 0⟩)).redCytoplasm = .nan :=
  ⟨by norm_num,
   (constant_image_all_nan (by norm_num) (by norm_num) 2 3 4 Gid
     (toF (constImage 1 1 7))).1,
   (constant_image_all_nan (by norm_num) (by norm_num) 2 3 4 Gid
     (toF (constImage 1 1 7))).2.2.2.2.2.2.2.2⟩

/-- C4 (amended): make_masks computes its thresholds on the (possibly
smoothed) image and returns them alongside the masks; whenever the
dilation step is skipped, the background mask is exactly the pixels
strictly above the lower threshold and the aggregate mask exactly those
strictly above the upper threshold, so threshold-equal pixels are
excluded. (With dilation active the masks are dilations of those strict
sets, which can re-include threshold-equal pixels.) -/
theorem make_masks_strict_thresholding {m n : ℕ} (G : SmoothFn m n)
    (image : Image m n) (s : Settings) :
    (make_masks G image s).lower =
      (compute_thresholds (prep G image s) s.lower_k s.upper_k).1 ∧
    (make_masks G image s).upper =
      (compute_thresholds (prep G image s) s.lower_k s.upper_k).2 ∧
    (¬ dilationActive s → ∀ i j,
      ((make_masks G image s).bg i j ↔
        prep G image s i j > (make_masks G image s).lower) ∧
      ((make_masks G image s).agg i j ↔
        prep G image s i j > (make_masks G image s).upper)) := by
  refine ⟨make_masks_lower G image s, make_masks_upper G image s, fun h i j => ?_⟩
  rw [make_masks_of_not_active G image s h]
  exact ⟨Iff.rfl, Iff.rfl⟩

/-- C4 witness: with the scenario settings (no dilation) the background
mask at pixel (0,0) is exactly the strict lower-threshold test, via the
main theorem. -/
theorem make_masks_strict_thresholding_witness :
    ¬ dilationActive s7 ∧
    ((make_masks Gid img7 s7).bg 0 0 ↔
      prep Gid img7 s7 0 0 > (make_masks Gid img7 s7).lower) :=
  ⟨fun h => h.1 rfl,
   ((make_masks_strict_thresholding Gid img7 s7).2.2 (fun h => h.1 rfl) 0 0).1⟩

/-- Mean of the 1x2 two-level image. -/
theorem img01_mean : npMean img01 = 5 := by
  unfold npMean img01
  rw [Fin.sum_univ_one]
  rw [Fin.sum_univ_two]
  norm_num

/-- Variance of the 1x2 two-level image. -/
theorem img01_var : npVar img01 = 25 := by
  unfold npVar
  rw [img01_mean]
  rw [show (fun (i : Fin 1) (j : Fin 2) => (img01 i j - 5) ^ 2) =
      constImage 1 2 25 by
    funext i j
    unfold img01 constImage
    split <;> norm_num]
  exact npMean_const (by norm_num) (by norm_num) 25

/-- Standard deviation of the 1x2 two-level image. -/
theorem img01_std : npStd img01 = 5 := by
  unfold npStd
  rw [img01_var]
  rw [show (25 : ℝ) = 5 ^ 2 by norm_num, Real.sqrt_sq (by norm_num : (0:ℝ) ≤ 5)]

/-- C4 counterexample: with k = -1 the lower threshold of the 1x2 image
(values 0 and 10) is 0, equal to pixel (0,0); with dilate_size = 3 that
threshold-equal pixel is nevertheless inside the returned background mask,
so make_masks does not always exclude threshold-equal pixels. -/
theorem make_masks_strict_thresholding_cex :
    prep Gid img01 s4 0 0 = (make_masks Gid img01 s4).lower ∧
    (make_masks Gid img01 s4).bg 0 0 := by
  have hprep : prep Gid img01 s4 = img01 := by
    unfold prep s4
    simp
  have hact : dilationActive s4 := by
    refine ⟨?_, ?_, ?_⟩ <;> unfold s4 <;> decide
  have hth : compute_thresholds img01 s4.lower_k s4.upper_k = (0, 0) := by
    unfold compute_thresholds
    rw [img01_mean, img01_std]
    unfold s4
    norm_num
  have hmm := make_masks_of_active Gid img01 s4 hact
  rw [hprep, hth] at hmm
  rw [hmm, hprep]
  constructor
  · show img01 0 0 = ((0 : ℝ), (0 : ℝ)).1
    unfold img01
    norm_num
  · show dilate ((s4.dilate_size.toNat - 1) / 2) (threshMask img01 ((0:ℝ), (0:ℝ)).1) 0 0
    refine ⟨0, 1, ?_, ?_, ?_, ?_, ?_⟩
    · show img01 0 1 > 0
      unfold img01
      norm_num
    · show (0 : Fin 1).val ≤ (0 : Fin 1).val + (s4.dilate_size.toNat - 1) / 2
      unfold s4
      decide
    · show (0 : Fin 1).val ≤ (0 : Fin 1).val + (s4.dilate_size.toNat - 1) / 2
      unfold s4
      decide
    · show (0 : Fin 2).val ≤ (1 : Fin 2).val + (s4.dilate_size.toNat - 1) / 2
      unfold s4
      decide
    · show (1 : Fin 2).val ≤ (0 : Fin 2).val + (s4.dilate_size.toNat - 1) / 2
      unfold s4
      decide

/-- Row sum of a two-level Fin 10 row: five entries below index 5, five at
or above. -/
theorem sum_fin10_halves (a b : ℝ) :
    (∑ j : Fin 10, if j.val < 5 then a else b) = 5 * a + 5 * b := by
  rw [Finset.sum_ite]
  rw [Finset.sum_const, Finset.sum_const]
  rw [show (Finset.univ.filter fun j : Fin 10 => j.val < 5).card = 5 by decide]
  rw [show (Finset.univ.filter fun j : Fin 10 => ¬ j.val < 5).card = 5 by decide]
  simp [nsmul_eq_mul]

/-- Mean of the 10x10 two-level image. -/
theorem img7_mean : npMean img7 = 5 := by
  unfold npMean img7
  rw [Finset.sum_congr rfl fun (i : Fin 10) _ => sum_fin10_halves 0 10]
  rw [Finset.sum_const, Finset.card_univ]
  simp [nsmul_eq_mul]
  norm_num

/-- Variance of the 10x10 two-level image. -/
theorem img7_var : npVar img7 = 25 := by
  unfold npVar
  rw [img7_mean]
  rw [show (fun (i : Fin 10) (j : Fin 10) => (img7 i j - 5) ^ 2) =
      constImage 10 10 25 by
    funext i j
    unfold img7 constImage
    split <;> norm_num]
  exact npMean_const (by norm_num) (by norm_num) 25

/-- Standard deviation of the 10x10 two-level image. -/
theorem img7_std : npStd img7 = 5 := by
  unfold npStd
  rw [img7_var]
  rw [show (25 : ℝ) = 5 ^ 2 by norm_num, Real.sqrt_sq (by norm_num : (0:ℝ) ≤ 5)]

/-- Thresholds of the end-to-end scenario: 5.5 and 9.5. -/
theorem img7_thresholds :
    compute_thresholds img7 s7.lower_k s7.upper_k = (5.5, 9.5) := by
  unfold compute_thresholds
  rw [img7_mean, img7_std]
  unfold s7
  norm_num

/-- The scenario settings skip smoothing. -/
theorem img7_prep : prep Gid img7 s7 = img7 := by
  unfold prep s7
  simp

/-- The scenario settings skip dilation. -/
theorem s7_not_active : ¬ dilationActive s7 := fun h => h.1 rfl

/-- The scenario background mask holds exactly on value-10 pixels. -/
theorem img7_bg_iff (i j : Fin 10) :
    (make_masks Gid img7 s7).bg i j ↔ img7 i j = 10 := by
  have hmm := make_masks_of_not_active Gid img7 s7 s7_not_active
  rw [img7_prep, img7_thresholds] at hmm
  rw [hmm]
  show img7 i j > ((5.5 : ℝ), (9.5 : ℝ)).1 ↔ img7 i j = 10
  unfold img7
  split <;> norm_num

/-- The scenario aggregate mask holds exactly on value-10 pixels. -/
theorem img7_agg_iff (i j : Fin 10) :
    (make_masks Gid img7 s7).agg i j ↔ img7 i j = 10 := by
  have hmm := make_masks_of_not_active Gid img7 s7 s7_not_active
  rw [img7_prep, img7_thresholds] at hmm
  rw [hmm]
  show img7 i j > ((5.5 : ℝ), (9.5 : ℝ)).2 ↔ img7 i j = 10
  unfold img7
  split <;> norm_num

/-- The right half of the scenario image has value 10. -/
theorem img7_right : img7 0 ⟨5, by norm_num⟩ = 10 := by
  unfold img7
  norm_num

/-- C7: in the end-to-end scenario (10x10 image, left half 0, right half
10, lower_k = 0.1, upper_k = 0.9, no blur, no dilation, primary =
secondary), the thresholds are 5.5 and 9.5, background holds exactly on
value-10 pixels, aggregate equals background, cytoplasm is all-false, Red
Cytoplasm is NaN, PC is NaN, and Aggregates and Background Removed are
both the mean 10 (so Aggregates >= Background Removed). -/
theorem end_to_end_scenario :
    (make_masks Gid img7 s7).lower = 5.5 ∧
    (make_masks Gid img7 s7).upper = 9.5 ∧
    (∀ i j, (make_masks Gid img7 s7).bg i j ↔ img7 i j = 10) ∧
    (∀ i j, (make_masks Gid img7 s7).agg i j ↔ (make_masks Gid img7 s7).bg i j) ∧
    (∀ i j, ¬ ((make_masks Gid img7 s7).bg i j ∧ ¬ (make_masks Gid img7 s7).agg i j)) ∧
    (measure_intensity (toF img7) (toF img7)
      (make_masks Gid img7 s7)).redCytoplasm = .nan ∧
    partition_coefficient
      (measure_intensity (toF img7) (toF img7) (make_masks Gid img7 s7)).redAggregates
      (measure_intensity (toF img7) (toF img7) (make_masks Gid img7 s7)).redCytoplasm
      = .nan ∧
    (measure_intensity (toF img7) (toF img7)
      (make_masks Gid img7 s7)).aggregates = .fin 10 ∧
    (measure_intensity (toF img7) (toF img7)
      (make_masks Gid img7 s7)).backgroundRemoved = .fin 10 := by
  have hcyto : (measure_intensity (toF img7) (toF img7)
      (make_masks Gid img7 s7)).redCytoplasm = .nan := by
    show nonzero_mean (toF img7)
      (some fun i j => (make_masks Gid img7 s7).bg i j ∧
        ¬ (make_masks Gid img7 s7).agg i j) = .nan
    apply nonzero_mean_all_false
    rintro i j ⟨hb, hna⟩
    exact hna ((img7_agg_iff i j).mpr ((img7_bg_iff i j).mp hb))
  refine ⟨?_, ?_, img7_bg_iff, ?_, ?_, hcyto, ?_, ?_, ?_⟩
  · rw [make_masks_lower Gid img7 s7, img7_prep, img7_thresholds]
  · rw [make_masks_upper Gid img7 s7, img7_prep, img7_thresholds]
  · intro i j
    rw [img7_agg_iff i j, img7_bg_iff i j]
  · rintro i j ⟨hb, hna⟩
    exact hna ((img7_agg_iff i j).mpr ((img7_bg_iff i j).mp hb))
  · rw [hcyto]
    rfl
  · show nonzero_mean (toF img7) (some (make_masks Gid img7 s7).agg) = .fin 10
    apply nonzero_mean_const
    · intro i j hm
      show FVal.fin (img7 i j) = .fin 10
      rw [(img7_agg_iff i j).mp hm]
    · exact ⟨0, ⟨5, by norm_num⟩, (img7_agg_iff 0 ⟨5, by norm_num⟩).mpr img7_right⟩
  · show nonzero_mean (toF img7) (some (make_masks Gid img7 s7).bg) = .fin 10
    apply nonzero_mean_const
    · intro i j hm
      show FVal.fin (img7 i j) = .fin 10
      rw [(img7_bg_iff i j).mp hm]
    · exact ⟨0, ⟨5, by norm_num⟩, (img7_bg_iff 0 ⟨5, by norm_num⟩).mpr img7_right⟩

/-- C8: an even or below-3 dilate_size skips dilation silently, giving the
same make_masks result as dilate_size = 0; dilate_size = 3 dilates both
masks with the 3x3 square element (radius 1); and dilating an isolated
single true pixel by radius 1 yields exactly the 3x3 Chebyshev block
around it, clipped at the image boundary. -/
theorem dilation_gating {m n : ℕ} :
    (∀ (G : SmoothFn m n) (image : Image m n) (s : Settings),
      s.dilate_size % 2 = 0 ∨ s.dilate_size < 3 →
      make_masks G image s =
        make_masks G image ⟨s.lower_k, s.upper_k, s.blur_sigma, 0⟩) ∧
    (∀ (G : SmoothFn m n) (image : Image m n) (s : Settings),
      s.dilate_size = 3 →
      (make_masks G image s).bg =
        dilate 1 (threshMask (prep G image s) (make_masks G image s).lower) ∧
      (make_masks G image s).agg =
        dilate 1 (threshMask (prep G image s) (make_masks G image s).upper)) ∧
    (∀ (p0 : Fin m × Fin n) (i : Fin m) (j : Fin n),
      dilate 1 (fun a b => a = p0.1 ∧ b = p0.2) i j ↔
        (i.val ≤ p0.1.val + 1 ∧ p0.1.val ≤ i.val + 1 ∧
         j.val ≤ p0.2.val + 1 ∧ p0.2.val ≤ j.val + 1)) := by
  refine ⟨fun G image s h => ?_, fun G image s h3 => ?_, fun p0 i j => ?_⟩
  · have h1 : ¬ dilationActive s := by
      rintro ⟨hz, hge, hodd⟩
      rcases h with he | hlt <;> omega
    have h2 : ¬ dilationActive (⟨s.lower_k, s.upper_k, s.blur_sigma, 0⟩ : Settings) :=
      fun hc => hc.1 rfl
    rw [make_masks_of_not_active G image s h1,
      make_masks_of_not_active G image _ h2]
    rfl
  · have hact : dilationActive s := by
      refine ⟨?_, ?_, ?_⟩ <;> rw [h3] <;> decide
    constructor
    · rw [make_masks_of_active G image s hact, h3]
      rfl
    · rw [make_masks_of_active G image s hact, h3]
      rfl
  · constructor
    · rintro ⟨a, b, ⟨ha, hb⟩, h1, h2, h4, h5⟩
      subst ha
      subst hb
      exact ⟨h1, h2, h4, h5⟩
    · rintro ⟨h1, h2, h4, h5⟩
      exact ⟨p0.1, p0.2, ⟨rfl, rfl⟩, h1, h2, h4, h5⟩

/-- C8 witness: dilate_size = 4 on the scenario image gives the same masks
as dilate_size = 0; dilate_size = 3 dilates the background mask by radius
1; an isolated true pixel at (5,5) dilated by radius 1 covers (4,4); each
via the main theorem. -/
theorem dilation_gating_witness :
    (((⟨0.1, 0.9, 0, 4⟩ : Settings).dilate_size % 2 = 0 ∨
        (⟨0.1, 0.9, 0, 4⟩ : Settings).dilate_size < 3) ∧
      make_masks Gid img7 ⟨0.1, 0.9, 0, 4⟩ =
        make_masks Gid img7 ⟨0.1, 0.9, 0, 0⟩) ∧
    ((⟨0.1, 0.9, 0, 3⟩ : Settings).dilate_size = 3 ∧
      (make_masks Gid img7 ⟨0.1, 0.9, 0, 3⟩).bg =
        dilate 1 (threshMask (prep Gid img7 ⟨0.1, 0.9, 0, 3⟩)
          (make_masks Gid img7 ⟨0.1, 0.9, 0, 3⟩).lower)) ∧
    (dilate 1 (fun a b => a = ((5 : Fin 10), (5 : Fin 10)).1 ∧
        b = ((5 : Fin 10), (5 : Fin 10)).2) 4 4 ↔
      ((4 : Fin 10).val ≤ ((5 : Fin 10), (5 : Fin 10)).1.val + 1 ∧
       ((5 : Fin 10), (5 : Fin 10)).1.val ≤ (4 : Fin 10).val + 1 ∧
       (4 : Fin 10).val ≤ ((5 : Fin 10), (5 : Fin 10)).2.val + 1 ∧
       ((5 : Fin 10), (5 : Fin 10)).2.val ≤ (4 : Fin 10).val + 1)) :=
  ⟨⟨Or.inl (by decide),
    dilation_gating.1 Gid img7 ⟨0.1, 0.9, 0, 4⟩ (Or.inl (by decide))⟩,
   ⟨rfl, (dilation_gating.2.1 Gid img7 ⟨0.1, 0.9, 0, 3⟩ rfl).1⟩,
   dilation_gating.2.2 ((5 : Fin 10), (5 : Fin 10)) 4 4⟩

/-- C10: when lower <= upper (which holds whenever lower_k <= upper_k,
since std >= 0), every aggregate pixel is a background pixel, with or
without dilation; dilation itself is monotone with respect to mask
inclusion. -/
theorem aggregate_subset_background {m n : ℕ} (G : SmoothFn m n)
    (image : Image m n) (s : Settings) :
    (s.lower_k ≤ s.upper_k →
      (make_masks G image s).lower ≤ (make_masks G image s).upper) ∧
    ((make_masks G image s).lower ≤ (make_masks G image s).upper →
      ∀ i j, (make_masks G image s).agg i j → (make_masks G image s).bg i j) ∧
    (∀ (r : ℕ) (mask₁ mask₂ : Mask m n), (∀ i j, mask₁ i j → mask₂ i j) →
      ∀ i j, dilate r mask₁ i j → dilate r mask₂ i j) := by
  refine ⟨fun hk => ?_, fun hlu i j hagg => ?_,
    fun r mask₁ mask₂ hsub i j hd => ?_⟩
  · rw [make_masks_lower G image s, make_masks_upper G image s]
    exact add_le_add_left
      (mul_le_mul_of_nonneg_right hk (npStd_nonneg (prep G image s))) _
  · by_cases hact : dilationActive s
    · rw [make_masks_of_active G image s hact] at hlu hagg ⊢
      obtain ⟨a, b, hab, h1, h2, h3, h4⟩ := hagg
      exact ⟨a, b, lt_of_le_of_lt hlu hab, h1, h2, h3, h4⟩
    · rw [make_masks_of_not_active G image s hact] at hlu hagg ⊢
      exact lt_of_le_of_lt hlu hagg
  · obtain ⟨a, b, hab, h1, h2, h3, h4⟩ := hd
    exact ⟨a, b, hsub a b hab, h1, h2, h3, h4⟩

/-- C10 witness: in the end-to-end scenario lower_k <= upper_k, hence
lower <= upper, and the aggregate pixel (0,5) is also a background pixel,
via the main theorem. -/
theorem aggregate_subset_background_witness :
    s7.lower_k ≤ s7.upper_k ∧
    (make_masks Gid img7 s7).lower ≤ (make_masks Gid img7 s7).upper ∧
    (make_masks Gid img7 s7).agg 0 ⟨5, by norm_num⟩ ∧
    (make_masks Gid img7 s7).bg 0 ⟨5, by norm_num⟩ := by
  have hk : s7.lower_k ≤ s7.upper_k := by
    unfold s7
    norm_num
  have hlu := (aggregate_subset_background Gid img7 s7).1 hk
  have hagg : (make_masks Gid img7 s7).agg 0 ⟨5, by norm_num⟩ :=
    (img7_agg_iff 0 ⟨5, by norm_num⟩).mpr img7_right
  exact ⟨hk, hlu,
    hagg, (aggregate_subset_background Gid img7 s7).2.1 hlu 0 ⟨5, by norm_num⟩ hagg⟩
